import Mathlib

/-!
Verification of the FEN (Forsyth–Edwards Notation) parser in `src/lib.rs`
of `libfen-rs`.  The Rust module is shallowly embedded below: every public
type and function keeps its source name, strings are modelled as their
character lists where convenient, `Result` becomes `Except`, and the two
fixed regular expressions of the source are embedded as executable
matchers with the same (leftmost-first, greedy) semantics the `regex`
crate gives those patterns.
-/

/-- Decidable equality on `Except`, for evaluating decoder results on
concrete inputs. -/
instance {ε α : Type} [DecidableEq ε] [DecidableEq α] :
    DecidableEq (Except ε α) := fun x y =>
  match x, y with
  | .ok a, .ok b =>
    if h : a = b then .isTrue (by rw [h])
    else .isFalse (by intro hh; cases hh; exact h rfl)
  | .error a, .error b =>
    if h : a = b then .isTrue (by rw [h])
    else .isFalse (by intro hh; cases hh; exact h rfl)
  | .ok _, .error _ => .isFalse (by intro hh; cases hh)
  | .error _, .ok _ => .isFalse (by intro hh; cases hh)

namespace LibFen

/-- Error type of the library (`LibFenError` in the source).  The
`RegexError` variant carries a `regex::Error` in the source; both fixed
patterns of the source compile, so the variant is never produced and its
payload is dropped here. -/
inductive LibFenError where
  | IncompleteFen
  | IllegalInput
  | Generic
  | RegexError
  deriving DecidableEq, Repr

/-- `Color` enum of the source. -/
inductive Color where
  | White
  | Black
  deriving DecidableEq, Repr

/-- `Kind` enum of the source. -/
inductive Kind where
  | Pawn
  | Rook
  | Knight
  | Bishop
  | Queen
  | King
  deriving DecidableEq, Repr

/-- `Position(usize, usize)` of the source: `x` is field `.0` (column),
`y` is field `.1` (row); the source indexes the grid as
`pieces[position.1][position.0]`. -/
structure Position where
  x : Nat
  y : Nat
  deriving DecidableEq, Repr

/-- `Piece` struct of the source. -/
structure Piece where
  kind : Kind
  color : Color
  position : Position
  deriving DecidableEq, Repr

/-- `GameState` struct of the source.  The `[[Option<Piece>; 8]; 8]`
grid (organization `[y][x]`) is modelled as a total function on the two
indices; the clocks and the castling mask are `i32` in the source and are
modelled as `Int` (the parser's range checks appear explicitly in
`parseI32` below). -/
structure GameState where
  pieces : Nat → Nat → Option Piece
  active_color : Color
  castling_availability : Int
  en_passant : Option Position
  half_move_clock : Int
  full_move_clock : Int

/-- `GameState::blank()` of the source. -/
def GameState.blank : GameState where
  pieces := fun _ _ => none
  active_color := .White
  castling_availability := 0
  en_passant := none
  half_move_clock := 0
  full_move_clock := 1

/-! ### Tokenizer

The source splits the input with `str::split_whitespace`, which splits on
runs of Unicode `White_Space` characters and discards empty pieces. -/

/-- The Unicode `White_Space` property, as used by Rust's
`char::is_whitespace`. -/
def rustIsWhitespace (c : Char) : Bool :=
  c == ' ' || c == '\t' || c == '\n' || c.toNat == 0x0B || c.toNat == 0x0C ||
  c == '\r' || c.toNat == 0x85 || c.toNat == 0xA0 || c.toNat == 0x1680 ||
  (0x2000 ≤ c.toNat && c.toNat ≤ 0x200A) || c.toNat == 0x2028 ||
  c.toNat == 0x2029 || c.toNat == 0x202F || c.toNat == 0x205F ||
  c.toNat == 0x3000

/-- Accumulating worker for `tokenize`: `acc` holds the current
(unfinished, reversed) token. -/
def splitWsAux : List Char → List Char → List (List Char)
  | [], acc => if acc.isEmpty then [] else [acc.reverse]
  | c :: cs, acc =>
    if rustIsWhitespace c then
      if acc.isEmpty then splitWsAux cs [] else acc.reverse :: splitWsAux cs []
    else
      splitWsAux cs (c :: acc)

/-- `fen_str.split_whitespace()` of the source, materialized as the list
of the (up to six, here: all) tokens the iterator yields. -/
def tokenize (s : String) : List String :=
  (splitWsAux s.data []).map String.mk

/-! ### The rank pattern

`RANK_REGEX` is `([prnbqkbnrPRNBQKBNR1-8]{1,8})/?`; `parse_ranks` anchors
eight copies of it as `^…$` and asks the `regex` crate for the eight
capture groups.  The crate implements leftmost-first (backtracking-
preference) match semantics: each greedy `{1,8}` tries the longest
repetition first and each `/?` tries to consume a `/` before trying the
empty alternative.  `matchGroups n s` below matches `(group/?){n}$`
against `s` under exactly that preference order and returns the capture
groups. -/

/-- Membership in the character class `[prnbqkbnrPRNBQKBNR1-8]`. -/
def inClass (c : Char) : Bool :=
  c == 'p' || c == 'r' || c == 'n' || c == 'b' || c == 'q' || c == 'k' ||
  c == 'P' || c == 'R' || c == 'N' || c == 'B' || c == 'Q' || c == 'K' ||
  ('1' ≤ c && c ≤ '8')

/-- `grab k s` consumes exactly `k` leading class characters of `s`,
returning them and the remainder. -/
def grab : Nat → List Char → Option (List Char × List Char)
  | 0, s => some ([], s)
  | _ + 1, [] => none
  | k + 1, c :: s =>
    if inClass c then
      match grab k s with
      | some (g, r) => some (c :: g, r)
      | none => none
    else
      none

/-- The `/?` after a group: try to consume a `/` and hand the rest to
`next` (the pattern after this repetition); on failure, or when no `/`
is present, hand the unconsumed remainder to `next`. -/
def afterGroup (next : List Char → Option (List (List Char))) :
    List Char → Option (List (List Char))
  | '/' :: r2 =>
    match next r2 with
    | some gs => some gs
    | none => next ('/' :: r2)
  | r => next r

/-- One repetition of the rank pattern, trying group lengths `k, k-1, …, 1`
(greedy `{1,8}` starts at `k = 8`); `next` matches whatever follows the
optional `/`. -/
def tryGroup (next : List Char → Option (List (List Char))) :
    Nat → List Char → Option (List (List Char))
  | 0, _ => none
  | k + 1, s =>
    match grab (k + 1) s with
    | none => tryGroup next k s
    | some (g, r) =>
      match afterGroup next r with
      | some gs => some (g :: gs)
      | none => tryGroup next k s

/-- `matchGroups n s`: match `(group/?){n}` against all of `s` (the `$`
anchor is the `n = 0` case), returning the list of capture groups of the
leftmost-first match. -/
def matchGroups : Nat → List Char → Option (List (List Char))
  | 0 => fun s => if s.isEmpty then some [] else none
  | n + 1 => fun s => tryGroup (matchGroups n) 8 s

/-- `re.captures(ranks)` for the anchored eight-fold `RANK_REGEX` of
`parse_ranks`: the eight capture groups (capture 0, the whole match, is
skipped by the source and not materialized here). -/
def regexCaptures (s : List Char) : Option (List (List Char)) :=
  matchGroups 8 s

/-! ### Piece-placement decoding -/

/-- The piece letter cases of the `match c` in `parse_rank`. -/
def pieceKind (c : Char) : Option Kind :=
  if c == 'p' || c == 'P' then some .Pawn
  else if c == 'r' || c == 'R' then some .Rook
  else if c == 'n' || c == 'N' then some .Knight
  else if c == 'b' || c == 'B' then some .Bishop
  else if c == 'q' || c == 'Q' then some .Queen
  else if c == 'k' || c == 'K' then some .King
  else none

/-- The `'1'..='8'` range pattern of `parse_rank`. -/
def isDigit18 (c : Char) : Bool := '1' ≤ c && c ≤ '8'

/-- `char::to_digit(c, 10).unwrap() as usize`, for decimal digits. -/
def digitVal (c : Char) : Nat := c.toNat - '0'.toNat

/-- The `for c in rank.chars()` loop of `parse_rank`, with the column
cursor `x` made explicit.  A piece letter pushes a piece at `(x, y)`, a
digit advances the cursor, any other character only prints a diagnostic;
afterwards an alphabetic character advances the cursor by one.  (The
source tests `char::is_alphabetic`, which is Unicode-aware; every
character this loop ever receives from `parse_ranks` is ASCII, where it
agrees with `Char.isAlpha`.)  The `x >= 8` check breaks out of the loop,
discarding the remaining characters. -/
def parseRankLoop (y : Nat) : Nat → List Char → List Piece
  | _, [] => []
  | x, c :: cs =>
    if 8 ≤ x then
      []
    else
      let color := if c.isUpper then Color.White else Color.Black
      let here : List Piece :=
        match pieceKind c with
        | some k => [⟨k, color, ⟨x, y⟩⟩]
        | none => []
      let x1 := if isDigit18 c then x + digitVal c else x
      let x2 := if c.isAlpha then x1 + 1 else x1
      here ++ parseRankLoop y x2 cs

/-- `parse_rank` of the source. -/
def parse_rank (y : Nat) (rank : List Char) : List Piece :=
  if y > 7 then [] else parseRankLoop y 0 rank

/-- `parse_ranks` of the source: absent token is `IncompleteFen`, a token
rejected by the anchored pattern is `Generic`; otherwise capture group
`cap_idx ∈ 1..=8` is decoded by `parse_rank (7 - (cap_idx - 1))` and the
per-rank piece lists are concatenated.  (`Regex::new` on the fixed
pattern cannot fail, so the source's `?` on it never produces
`RegexError`.) -/
def parse_ranks : Option String → Except LibFenError (List Piece)
  | none => .error .IncompleteFen
  | some ranks =>
    match regexCaptures ranks.data with
    | none => .error .Generic
    | some caps => .ok (caps.enum.flatMap fun p => parse_rank (7 - p.1) p.2)

/-! ### The remaining field decoders -/

/-- `parse_active_color` of the source. -/
def parse_active_color : Option String → Except LibFenError Color
  | none => .error .IncompleteFen
  | some input =>
    if input = "w" then .ok .White
    else if input = "b" then .ok .Black
    else .error .IllegalInput

/-- `WHITE_KINGSIDE = 1 << 0`. -/
def WHITE_KINGSIDE : Int := 1
/-- `WHITE_QUEENSIDE = 1 << 1`. -/
def WHITE_QUEENSIDE : Int := 2
/-- `BLACK_KINGSIDE = 1 << 2`. -/
def BLACK_KINGSIDE : Int := 4
/-- `BLACK_QUEENSIDE = 1 << 3`. -/
def BLACK_QUEENSIDE : Int := 8

/-- `parse_castling_availabilty` of the source (source order of the four
`input.find(..)` checks: `K`, `k`, `Q`, `q`). -/
def parse_castling_availabilty : Option String → Except LibFenError Int
  | none => .error .IncompleteFen
  | some input =>
    let value : Int := 0
    let value := if input.data.contains 'K' then Int.lor value WHITE_KINGSIDE else value
    let value := if input.data.contains 'k' then Int.lor value BLACK_KINGSIDE else value
    let value := if input.data.contains 'Q' then Int.lor value WHITE_QUEENSIDE else value
    let value := if input.data.contains 'q' then Int.lor value BLACK_QUEENSIDE else value
    .ok value

/-- `EN_PASSANT_REGEX` is the anchored `^([a-g])([36])$`: the whole token
must be a file letter `a`–`g` followed by a `3` or a `6`; on a match the
two capture groups are those two characters. -/
def epCaptures : List Char → Option (Char × Char)
  | [f, r] =>
    if ('a' ≤ f && f ≤ 'g') && (r == '3' || r == '6') then some (f, r) else none
  | _ => none

/-- `parse_en_passant` of the source.  `x` is `(c as u8 - 'a' as u8) as
usize` (no wrap: the match guarantees `c ∈ a..=g`), `y` is
`char::to_digit(c, 10).unwrap() as usize`. -/
def parse_en_passant : Option String → Except LibFenError (Option Position)
  | none => .error .IncompleteFen
  | some input =>
    match epCaptures input.data with
    | none => .error .Generic
    | some (f, r) => .ok (some ⟨f.toNat - 'a'.toNat, digitVal r⟩)

/-- Decimal digit test of `i32::from_str`. -/
def isDigit (c : Char) : Bool := '0' ≤ c && c ≤ '9'

/-- Magnitude of a digit string, as accumulated by `i32::from_str`. -/
def natOfDigits (ds : List Char) : Nat :=
  ds.foldl (fun a c => a * 10 + digitVal c) 0

/-- `input.parse::<i32>()`: an optional leading sign, then a nonempty
run of ASCII digits, and the value must fit in `i32`. -/
def parseI32 (s : List Char) : Option Int :=
  let sign : Int := if s.head? = some '-' then -1 else 1
  let ds := if s.head? = some '+' || s.head? = some '-' then s.tail else s
  if ds.isEmpty then none
  else if ds.all isDigit then
    let v : Int := sign * natOfDigits ds
    if -2147483648 ≤ v ∧ v ≤ 2147483647 then some v else none
  else none

/-- `parse_move_clock` of the source. -/
def parse_move_clock : Option String → Except LibFenError Int
  | none => .error .IncompleteFen
  | some input =>
    match parseI32 input.data with
    | some v => .ok v
    | none => .error .IllegalInput

/-! ### Assembler -/

/-- One iteration of the `for piece in pieces` loop of `do_parse`:
`game_state.pieces[piece.position.1][piece.position.0] = Some(piece)`.
(The Rust index write would panic at an index ≥ 8; the bounds theorem for
the placement decoder below shows such indices never reach this write.) -/
def placePiece (grid : Nat → Nat → Option Piece) (p : Piece) :
    Nat → Nat → Option Piece :=
  fun y x => if y = p.position.y ∧ x = p.position.x then some p else grid y x

/-- `do_parse` of the source: the six decoders run eagerly on tokens
0–5; in strict mode each decoded `Result` is applied with `?` in order
(placement, active color, castling, en-passant, halfmove, fullmove), in
lenient mode the placement falls back to the empty list and every other
field to the caller's defaults. -/
def do_parse (fen_str : String) (defaults : GameState) (strict : Bool) :
    Except LibFenError GameState :=
  let split := tokenize fen_str
  let pieces := parse_ranks split[0]?
  let active_color := parse_active_color split[1]?
  let castling_availability := parse_castling_availabilty split[2]?
  let en_passant := parse_en_passant split[3]?
  let half_move_clock := parse_move_clock split[4]?
  let full_move_clock := parse_move_clock split[5]?
  (if strict then pieces else .ok (pieces.toOption.getD [])).bind fun ps =>
  (if strict then active_color else .ok defaults.active_color).bind fun ac =>
  (if strict then castling_availability else .ok defaults.castling_availability).bind fun ca =>
  (if strict then en_passant else .ok defaults.en_passant).bind fun ep =>
  (if strict then half_move_clock else .ok defaults.half_move_clock).bind fun hm =>
  (if strict then full_move_clock else .ok defaults.full_move_clock).bind fun fm =>
  .ok { pieces := ps.foldl placePiece defaults.pieces
        active_color := ac
        castling_availability := ca
        en_passant := ep
        half_move_clock := hm
        full_move_clock := fm }

/-- `parse` of the source (strict). -/
def parse (fen_str : String) : Except LibFenError GameState :=
  do_parse fen_str GameState.blank true

/-- `parse_or_else` of the source (lenient with caller defaults). -/
def parse_or_else (fen_str : String) (defaults : GameState) : GameState :=
  match do_parse fen_str defaults false with
  | .ok g => g
  | .error _ => defaults

/-- `parse_or_default` of the source. -/
def parse_or_default (fen_str : String) : GameState :=
  parse_or_else fen_str GameState.blank

/-! ### Specification-side definitions

The next definitions follow the wording of the specification (not the
source); they exist so that theorems can compare the code against the
spec's description of it. -/

/-- Split a character list at every `'/'` (the separators themselves are
dropped; adjacent or trailing separators yield empty pieces). -/
def splitSlash : List Char → List (List Char)
  | [] => [[]]
  | c :: cs =>
    if c = '/' then [] :: splitSlash cs
    else
      match splitSlash cs with
      | [] => [[c]]
      | g :: gs => (c :: g) :: gs

/-- The spec's notion of a well-formed rank-group: 1–8 characters drawn
from the piece letters (either case) and the digits 1–8. -/
def goodGroup (g : List Char) : Bool :=
  decide (1 ≤ g.length) && decide (g.length ≤ 8) && g.all inClass

/-- The spec's claimed shape for the placement token: exactly 8
rank-groups separated by `/`, each a well-formed rank-group. -/
def claimedShape (t : String) : Bool :=
  decide ((splitSlash t.data).length = 8) && (splitSlash t.data).all goodGroup

/-- Joining groups with `'/'` separators: left inverse of `splitSlash`,
used to describe slash-separated placement tokens. -/
def joinSlash : List (List Char) → List Char
  | [] => []
  | [g] => g
  | g :: g2 :: gs => g ++ '/' :: joinSlash (g2 :: gs)

/-- Castling mask as described by the spec: bit0 for `K`, bit1 for `Q`,
bit2 for `k`, bit3 for `q`; the OR of distinct single bits is their
sum. -/
def specCastlingMask (t : String) : Int :=
  (if t.data.contains 'K' then 1 else 0) + (if t.data.contains 'Q' then 2 else 0) +
  (if t.data.contains 'k' then 4 else 0) + (if t.data.contains 'q' then 8 else 0)

/-- The spec's notion of a base-10 integer token: an optional leading
sign followed by a nonempty run of decimal digits. -/
def specIntTok (l : List Char) : Bool :=
  if l.head? = some '+' || l.head? = some '-' then
    !l.tail.isEmpty && l.tail.all isDigit
  else
    !l.isEmpty && l.all isDigit

/-- Value of a digit run, positionally (most significant digit first). -/
def specDigitsVal : List Char → Nat
  | [] => 0
  | c :: cs => digitVal c * 10 ^ cs.length + specDigitsVal cs

/-- Signed value of a base-10 integer token. -/
def specIntVal (l : List Char) : Int :=
  if l.head? = some '-' then -(specDigitsVal l.tail : Int)
  else if l.head? = some '+' then specDigitsVal l.tail
  else specDigitsVal l

/-- Success of the decoder of field `i` on token list `ts`, in the
application order of `do_parse` (placement, active color, castling,
en-passant, halfmove, fullmove). -/
def fieldOk (ts : List String) : Nat → Bool
  | 0 => (parse_ranks ts[0]?).isOk
  | 1 => (parse_active_color ts[1]?).isOk
  | 2 => (parse_castling_availabilty ts[2]?).isOk
  | 3 => (parse_en_passant ts[3]?).isOk
  | 4 => (parse_move_clock ts[4]?).isOk
  | _ => (parse_move_clock ts[5]?).isOk

/-! ## Helper lemmas -/

theorem except_isOk_iff {ε α : Type} (e : Except ε α) :
    e.isOk = true ↔ ∃ v, e = .ok v := by
  cases e with
  | ok v => simp [Except.isOk, Except.toBool]
  | error _ => simp [Except.isOk, Except.toBool]

/-- The strict pipeline, written as the cascade of the six field
decoders in application order. -/
theorem parse_cascade (s : String) :
    parse s =
      match parse_ranks (tokenize s)[0]? with
      | .error e => .error e
      | .ok ps =>
        match parse_active_color (tokenize s)[1]? with
        | .error e => .error e
        | .ok ac =>
          match parse_castling_availabilty (tokenize s)[2]? with
          | .error e => .error e
          | .ok ca =>
            match parse_en_passant (tokenize s)[3]? with
            | .error e => .error e
            | .ok ep =>
              match parse_move_clock (tokenize s)[4]? with
              | .error e => .error e
              | .ok hm =>
                match parse_move_clock (tokenize s)[5]? with
                | .error e => .error e
                | .ok fm =>
                  .ok { pieces := ps.foldl placePiece GameState.blank.pieces
                        active_color := ac
                        castling_availability := ca
                        en_passant := ep
                        half_move_clock := hm
                        full_move_clock := fm } := by
  unfold parse do_parse
  simp only [if_true]
  cases parse_ranks (tokenize s)[0]? with
  | error e => rfl
  | ok ps =>
    cases parse_active_color (tokenize s)[1]? with
    | error e => rfl
    | ok ac =>
      cases parse_castling_availabilty (tokenize s)[2]? with
      | error e => rfl
      | ok ca =>
        cases parse_en_passant (tokenize s)[3]? with
        | error e => rfl
        | ok ep =>
          cases parse_move_clock (tokenize s)[4]? with
          | error e => rfl
          | ok hm =>
            cases parse_move_clock (tokenize s)[5]? with
            | error e => rfl
            | ok fm => rfl

/-! ## Claim theorems -/

/-- Claim C1: for every input string and every defaults snapshot,
`parse_or_else` returns a snapshot whose `active_color`,
`castling_availability`, `en_passant`, `half_move_clock` and
`full_move_clock` are exactly those of the defaults, whatever the input
looks like; only the grid can differ from the defaults, it is unchanged
whenever the placement token is absent or fails the pattern, and when
the placement token matches, the snapshot is the defaults with only the
decoded pieces written into the grid. -/
theorem parse_or_else_frame (s : String) (d : GameState) :
    (parse_or_else s d).active_color = d.active_color ∧
    (parse_or_else s d).castling_availability = d.castling_availability ∧
    (parse_or_else s d).en_passant = d.en_passant ∧
    (parse_or_else s d).half_move_clock = d.half_move_clock ∧
    (parse_or_else s d).full_move_clock = d.full_move_clock ∧
    (∀ e, parse_ranks (tokenize s)[0]? = .error e → parse_or_else s d = d) ∧
    (∀ ps, parse_ranks (tokenize s)[0]? = .ok ps →
      parse_or_else s d = { d with pieces := ps.foldl placePiece d.pieces }) := by
  unfold parse_or_else do_parse
  simp only [if_false]
  cases h : parse_ranks (tokenize s)[0]? with
  | error e =>
    refine ⟨rfl, rfl, rfl, rfl, rfl, fun _ _ => rfl, fun ps hps => ?_⟩
    exact absurd hps (by intro hh; cases hh)
  | ok ps =>
    refine ⟨rfl, rfl, rfl, rfl, rfl, fun e he => ?_, fun ps' hps => ?_⟩
    · exact absurd he (by intro hh; cases hh)
    · injection hps with hh
      subst hh
      rfl

/-- Claim C1 witness: the spec's own example, a defaults snapshot with
fullmove clock 7 and an input whose fullmove token is the non-numeric
`xyz`; the returned snapshot's fullmove clock is still 7. -/
theorem parse_or_else_frame_witness :
    (parse_or_else "8/8/8/8/8/8/8/8 w KQkq e3 0 xyz"
      { GameState.blank with full_move_clock := 7 }).full_move_clock = 7 :=
  (parse_or_else_frame "8/8/8/8/8/8/8/8 w KQkq e3 0 xyz"
    { GameState.blank with full_move_clock := 7 }).2.2.2.2.1.trans rfl

/-- Claim C2: whenever the first three fields decode successfully and the
fourth whitespace-separated token is exactly `-`, strict `parse` fails
with `Generic`; and the en-passant decoder never maps `-` to "no
en-passant target" — it rejects it with `Generic`. -/
theorem strict_rejects_dash_en_passant :
    (∀ s : String,
      (parse_ranks (tokenize s)[0]?).isOk = true →
      (parse_active_color (tokenize s)[1]?).isOk = true →
      (parse_castling_availabilty (tokenize s)[2]?).isOk = true →
      (tokenize s)[3]? = some "-" →
      parse s = .error .Generic) ∧
    parse_en_passant (some "-") = .error .Generic := by
  constructor
  · intro s h0 h1 h2 h3
    obtain ⟨ps, hps⟩ := (except_isOk_iff _).mp h0
    obtain ⟨ac, hac⟩ := (except_isOk_iff _).mp h1
    obtain ⟨ca, hca⟩ := (except_isOk_iff _).mp h2
    rw [parse_cascade, hps, hac, hca, h3]
    rfl
  · rfl

/-- Claim C2 witness: an otherwise fully standard FEN whose en-passant
token is the standard absence marker `-` is rejected with `Generic`. -/
theorem strict_rejects_dash_en_passant_witness :
    parse "8/8/8/8/8/8/8/8 w - - 0 1" = .error .Generic :=
  strict_rejects_dash_en_passant.1 "8/8/8/8/8/8/8/8 w - - 0 1"
    (by decide) (by decide) (by decide) (by decide)

/-- Claim C3: an input with fewer than six tokens whose present tokens
all decode successfully fails strict parsing with `IncompleteFen` (in
particular the empty string does); and the error strict parsing reports
is that of the first failing field in application order — each conjunct
below states this for one field, given that the fields before it
succeeded. -/
theorem strict_incomplete_and_first_error :
    (∀ s : String, (tokenize s).length < 6 →
      (∀ i, i < (tokenize s).length → fieldOk (tokenize s) i = true) →
      parse s = .error .IncompleteFen) ∧
    parse "" = .error .IncompleteFen ∧
    (∀ (s : String) e, parse_ranks (tokenize s)[0]? = .error e →
      parse s = .error e) ∧
    (∀ (s : String) ps e, parse_ranks (tokenize s)[0]? = .ok ps →
      parse_active_color (tokenize s)[1]? = .error e → parse s = .error e) ∧
    (∀ (s : String) ps ac e, parse_ranks (tokenize s)[0]? = .ok ps →
      parse_active_color (tokenize s)[1]? = .ok ac →
      parse_castling_availabilty (tokenize s)[2]? = .error e →
      parse s = .error e) ∧
    (∀ (s : String) ps ac ca e, parse_ranks (tokenize s)[0]? = .ok ps →
      parse_active_color (tokenize s)[1]? = .ok ac →
      parse_castling_availabilty (tokenize s)[2]? = .ok ca →
      parse_en_passant (tokenize s)[3]? = .error e → parse s = .error e) ∧
    (∀ (s : String) ps ac ca ep e, parse_ranks (tokenize s)[0]? = .ok ps →
      parse_active_color (tokenize s)[1]? = .ok ac →
      parse_castling_availabilty (tokenize s)[2]? = .ok ca →
      parse_en_passant (tokenize s)[3]? = .ok ep →
      parse_move_clock (tokenize s)[4]? = .error e → parse s = .error e) ∧
    (∀ (s : String) ps ac ca ep hm e, parse_ranks (tokenize s)[0]? = .ok ps →
      parse_active_color (tokenize s)[1]? = .ok ac →
      parse_castling_availabilty (tokenize s)[2]? = .ok ca →
      parse_en_passant (tokenize s)[3]? = .ok ep →
      parse_move_clock (tokenize s)[4]? = .ok hm →
      parse_move_clock (tokenize s)[5]? = .error e → parse s = .error e) := by
  refine ⟨?_, by rfl, ?_, ?_, ?_, ?_, ?_, ?_⟩
  · intro s hlen hok
    generalize hn : (tokenize s).length = n at hlen hok
    interval_cases n
    · have e0 : (tokenize s)[0]? = none := List.getElem?_eq_none (by omega)
      rw [parse_cascade, e0]
      rfl
    · have h0 := hok 0 (by omega)
      simp only [fieldOk] at h0
      obtain ⟨ps, hps⟩ := (except_isOk_iff _).mp h0
      have e1 : (tokenize s)[1]? = none := List.getElem?_eq_none (by omega)
      rw [parse_cascade, hps, e1]
      rfl
    · have h0 := hok 0 (by omega)
      have h1 := hok 1 (by omega)
      simp only [fieldOk] at h0 h1
      obtain ⟨ps, hps⟩ := (except_isOk_iff _).mp h0
      obtain ⟨ac, hac⟩ := (except_isOk_iff _).mp h1
      have e2 : (tokenize s)[2]? = none := List.getElem?_eq_none (by omega)
      rw [parse_cascade, hps, hac, e2]
      rfl
    · have h0 := hok 0 (by omega)
      have h1 := hok 1 (by omega)
      have h2 := hok 2 (by omega)
      simp only [fieldOk] at h0 h1 h2
      obtain ⟨ps, hps⟩ := (except_isOk_iff _).mp h0
      obtain ⟨ac, hac⟩ := (except_isOk_iff _).mp h1
      obtain ⟨ca, hca⟩ := (except_isOk_iff _).mp h2
      have e3 : (tokenize s)[3]? = none := List.getElem?_eq_none (by omega)
      rw [parse_cascade, hps, hac, hca, e3]
      rfl
    · have h0 := hok 0 (by omega)
      have h1 := hok 1 (by omega)
      have h2 := hok 2 (by omega)
      have h3 := hok 3 (by omega)
      simp only [fieldOk] at h0 h1 h2 h3
      obtain ⟨ps, hps⟩ := (except_isOk_iff _).mp h0
      obtain ⟨ac, hac⟩ := (except_isOk_iff _).mp h1
      obtain ⟨ca, hca⟩ := (except_isOk_iff _).mp h2
      obtain ⟨ep, hep⟩ := (except_isOk_iff _).mp h3
      have e4 : (tokenize s)[4]? = none := List.getElem?_eq_none (by omega)
      rw [parse_cascade, hps, hac, hca, hep, e4]
      rfl
    · have h0 := hok 0 (by omega)
      have h1 := hok 1 (by omega)
      have h2 := hok 2 (by omega)
      have h3 := hok 3 (by omega)
      have h4 := hok 4 (by omega)
      simp only [fieldOk] at h0 h1 h2 h3 h4
      obtain ⟨ps, hps⟩ := (except_isOk_iff _).mp h0
      obtain ⟨ac, hac⟩ := (except_isOk_iff _).mp h1
      obtain ⟨ca, hca⟩ := (except_isOk_iff _).mp h2
      obtain ⟨ep, hep⟩ := (except_isOk_iff _).mp h3
      obtain ⟨hm, hhm⟩ := (except_isOk_iff _).mp h4
      have e5 : (tokenize s)[5]? = none := List.getElem?_eq_none (by omega)
      rw [parse_cascade, hps, hac, hca, hep, hhm, e5]
      rfl
  · intro s e h0
    rw [parse_cascade, h0]
  · intro s ps e h0 h1
    rw [parse_cascade, h0, h1]
  · intro s ps ac e h0 h1 h2
    rw [parse_cascade, h0, h1, h2]
  · intro s ps ac ca e h0 h1 h2 h3
    rw [parse_cascade, h0, h1, h2, h3]
  · intro s ps ac ca ep e h0 h1 h2 h3 h4
    rw [parse_cascade, h0, h1, h2, h3, h4]
  · intro s ps ac ca ep hm e h0 h1 h2 h3 h4 h5
    rw [parse_cascade, h0, h1, h2, h3, h4, h5]

/-- Claim C3 witness: a FEN with only the first three fields, all of
which decode successfully, fails with `IncompleteFen`. -/
theorem strict_incomplete_and_first_error_witness :
    parse "8/8/8/8/8/8/8/8 w KQkq" = .error .IncompleteFen :=
  strict_incomplete_and_first_error.1 "8/8/8/8/8/8/8/8 w KQkq"
    (by decide) (by decide)

/-- Claim C9: the active-color decoder sends `w` to `White`, `b` to
`Black`, an absent token to `IncompleteFen` and everything else to
`IllegalInput`. -/
theorem active_color_decode :
    parse_active_color none = .error .IncompleteFen ∧
    parse_active_color (some "w") = .ok .White ∧
    parse_active_color (some "b") = .ok .Black ∧
    (∀ s : String, s ≠ "w" → s ≠ "b" →
      parse_active_color (some s) = .error .IllegalInput) := by
  refine ⟨rfl, rfl, rfl, fun s hw hb => ?_⟩
  simp only [parse_active_color]
  rw [if_neg hw, if_neg hb]

/-- Claim C9 witness: the token `x` is neither `w` nor `b` and is
rejected with `IllegalInput`. -/
theorem active_color_decode_witness :
    parse_active_color (some "x") = .error .IllegalInput :=
  active_color_decode.2.2.2 "x" (by decide) (by decide)

/-- Claim C7: a present castling token decodes to the mask with bit0 for
`K`, bit1 for `Q`, bit2 for `k`, bit3 for `q` (as described by the spec,
the OR of the four single-bit contributions); `KQkq` gives 15, `Kq`
gives 9, `-` gives 0; an absent token is `IncompleteFen`; and the result
depends only on which of the four letters the token contains, so
duplicates and character order are irrelevant and every other character
contributes nothing. -/
theorem castling_mask_decode :
    (∀ t : String, parse_castling_availabilty (some t) = .ok (specCastlingMask t)) ∧
    parse_castling_availabilty (some "KQkq") = .ok 15 ∧
    parse_castling_availabilty (some "Kq") = .ok 9 ∧
    parse_castling_availabilty (some "-") = .ok 0 ∧
    parse_castling_availabilty none = .error .IncompleteFen ∧
    (∀ t₁ t₂ : String,
      t₁.data.contains 'K' = t₂.data.contains 'K' →
      t₁.data.contains 'Q' = t₂.data.contains 'Q' →
      t₁.data.contains 'k' = t₂.data.contains 'k' →
      t₁.data.contains 'q' = t₂.data.contains 'q' →
      parse_castling_availabilty (some t₁) = parse_castling_availabilty (some t₂)) := by
  have h1 : ∀ t : String,
      parse_castling_availabilty (some t) = .ok (specCastlingMask t) := by
    intro t
    unfold parse_castling_availabilty specCastlingMask
    cases hK : t.data.contains 'K' <;> cases hk : t.data.contains 'k' <;>
      cases hQ : t.data.contains 'Q' <;> cases hq : t.data.contains 'q' <;>
      simp only [hK, hk, hQ, hq] <;> decide
  refine ⟨h1, ?_, ?_, ?_, rfl, fun t₁ t₂ e1 e2 e3 e4 => ?_⟩
  · exact (h1 "KQkq").trans (by decide)
  · exact (h1 "Kq").trans (by decide)
  · exact (h1 "-").trans (by decide)
  · simp only [parse_castling_availabilty]
    rw [e1, e2, e3, e4]

/-- Claim C7 witness: `qK` contains the same flag letters as `Kq` (order
reversed), so both decode alike. -/
theorem castling_mask_decode_witness :
    parse_castling_availabilty (some "Kq") = parse_castling_availabilty (some "qK") :=
  castling_mask_decode.2.2.2.2.2 "Kq" "qK"
    (by decide) (by decide) (by decide) (by decide)

/-- Claim C6: a present en-passant token made of a file letter `a`–`g`
and a rank digit `3` or `6` decodes to the square whose column is the
file's offset from `a` and whose row is the literal digit value, used
directly as the row index; a token starting with the file letter `h` is
rejected with `Generic`; an absent token is `IncompleteFen`. -/
theorem en_passant_decode :
    (∀ f d : Char, 'a' ≤ f → f ≤ 'g' → d = '3' ∨ d = '6' →
      parse_en_passant (some (String.mk [f, d])) =
        .ok (some ⟨f.toNat - 'a'.toNat, if d = '3' then 3 else 6⟩)) ∧
    (∀ d : Char, parse_en_passant (some (String.mk ['h', d])) = .error .Generic) ∧
    parse_en_passant none = .error .IncompleteFen := by
  refine ⟨fun f d hf1 hf2 hd => ?_, fun d => ?_, rfl⟩
  · rcases hd with hd | hd <;> subst hd <;>
      simp [parse_en_passant, epCaptures, digitVal, hf1, hf2]
  · simp [parse_en_passant, epCaptures]

/-- Claim C6 witness: `e3` decodes to column 4, row 3 (the literal rank
digit), and `h6` is rejected. -/
theorem en_passant_decode_witness :
    parse_en_passant (some "e3") = .ok (some ⟨4, 3⟩) ∧
    parse_en_passant (some "h6") = .error .Generic :=
  ⟨(en_passant_decode.1 'e' '3' (by decide) (by decide) (Or.inl rfl)).trans
      (by decide),
    en_passant_decode.2.1 '6'⟩

theorem foldl_digits_eq (ds : List Char) :
    ∀ a : Nat, ds.foldl (fun a c => a * 10 + digitVal c) a =
      a * 10 ^ ds.length + specDigitsVal ds := by
  induction ds with
  | nil => intro a; simp [specDigitsVal]
  | cons c cs ih =>
    intro a
    simp only [List.foldl_cons, List.length_cons, specDigitsVal, ih]
    ring

theorem natOfDigits_eq_spec (ds : List Char) :
    natOfDigits ds = specDigitsVal ds := by
  simpa using foldl_digits_eq ds 0

/-- Claim C10: each move-clock decoder maps an absent token to
`IncompleteFen`; a present token that is a base-10 integer numeral
(optional sign, nonempty digit run) whose value fits in `i32` decodes to
exactly that value — in particular negative values are accepted — and a
present token that is not such a numeral (or does not fit in `i32`, the
only range restriction, which comes from the integer parse itself) fails
with `IllegalInput`. -/
theorem move_clock_decode :
    parse_move_clock none = .error .IncompleteFen ∧
    (∀ s : String, specIntTok s.data = true →
      -2147483648 ≤ specIntVal s.data → specIntVal s.data ≤ 2147483647 →
      parse_move_clock (some s) = .ok (specIntVal s.data)) ∧
    (∀ s : String, specIntTok s.data = false →
      parse_move_clock (some s) = .error .IllegalInput) ∧
    (∀ s : String,
      specIntVal s.data < -2147483648 ∨ 2147483647 < specIntVal s.data →
      parse_move_clock (some s) = .error .IllegalInput) ∧
    parse_move_clock (some "-3") = .ok (-3) := by
  have core : ∀ l : List Char,
      parseI32 l = if specIntTok l = true then
        (if -2147483648 ≤ specIntVal l ∧ specIntVal l ≤ 2147483647 then
          some (specIntVal l) else none)
      else none := by
    intro l
    by_cases hm : l.head? = some '-'
    · simp only [parseI32, specIntTok, specIntVal, hm, if_pos, or_true,
        if_true, natOfDigits_eq_spec]
      by_cases he : l.tail.isEmpty
      · simp [he]
      · by_cases hd : l.tail.all isDigit
        · simp [he, hd, neg_mul, one_mul]
        · simp [he, hd]
    · by_cases hp : l.head? = some '+'
      · simp only [parseI32, specIntTok, specIntVal, hm, hp, if_pos,
          true_or, if_true, if_false, natOfDigits_eq_spec]
        by_cases he : l.tail.isEmpty
        · simp [he]
        · by_cases hd : l.tail.all isDigit
          · simp [he, hd, one_mul]
          · simp [he, hd]
      · have hor : (l.head? = some '+' || l.head? = some '-') = false := by
          simp [hp, hm]
        simp only [parseI32, specIntTok, specIntVal, hm, hp, hor,
          Bool.false_eq_true, if_false, natOfDigits_eq_spec]
        by_cases he : l.isEmpty
        · simp [he]
        · by_cases hd : l.all isDigit
          · simp [he, hd, one_mul]
          · simp [he, hd]
  refine ⟨rfl, fun s htok h1 h2 => ?_, fun s htok => ?_, fun s hrange => ?_, ?_⟩
  · simp only [parse_move_clock, core, htok, if_true, if_pos (⟨h1, h2⟩ : _ ∧ _)]
  · simp only [parse_move_clock, core, htok, Bool.false_eq_true, if_false]
  · by_cases htok : specIntTok s.data = true
    · have : ¬(-2147483648 ≤ specIntVal s.data ∧ specIntVal s.data ≤ 2147483647) := by
        rcases hrange with h | h
        · exact fun hc => absurd hc.1 (by omega)
        · exact fun hc => absurd hc.2 (by omega)
      simp only [parse_move_clock, core, htok, if_true, if_neg this]
    · simp only [parse_move_clock, core, eq_false_of_ne_true htok,
        Bool.false_eq_true, if_false]
  · rfl

/-- Claim C10 witness: the negative numeral `-3` is accepted with value
−3, and the non-numeric token `xyz` is rejected with `IllegalInput`. -/
theorem move_clock_decode_witness :
    parse_move_clock (some "-3") = .ok (-3) ∧
    parse_move_clock (some "xyz") = .error .IllegalInput :=
  ⟨move_clock_decode.2.2.2.2,
    move_clock_decode.2.2.1 "xyz" (by decide)⟩

end LibFen

namespace LibFen

theorem parseRankLoop_bounds (y : Nat) :
    ∀ (cs : List Char) (x : Nat), ∀ p ∈ parseRankLoop y x cs,
      p.position.x < 8 ∧ p.position.y = y := by
  intro cs
  induction cs with
  | nil => intro x p hp; simp [parseRankLoop] at hp
  | cons c cs ih =>
    intro x p hp
    by_cases h8 : 8 ≤ x
    · simp [parseRankLoop, h8] at hp
    · simp only [parseRankLoop, if_neg h8, List.mem_append] at hp
      rcases hp with hp | hp
      · cases hk : pieceKind c <;> rw [hk] at hp
        · simp at hp
        · simp at hp
          subst hp
          exact ⟨by show x < 8; omega, rfl⟩
      · exact ih _ p hp

/-- Claim C8: every piece the placement decoder produces — whether the
result list is consumed by the strict or the lenient pipeline — has both
position components in `[0, 7]`: `parse_rank` only creates a piece while
the column cursor is `< 8` and with the row it was given (and returns
nothing for a row `> 7`), so both coordinates of the later grid write
`pieces[p.y][p.x]` are in bounds and the write cannot panic. -/
theorem placement_positions_in_bounds :
    (∀ (y : Nat) (rank : List Char), ∀ p ∈ parse_rank y rank,
      p.position.x ≤ 7 ∧ p.position.y ≤ 7) ∧
    (∀ (r : Option String) (ps : List Piece), parse_ranks r = .ok ps →
      ∀ p ∈ ps, p.position.x ≤ 7 ∧ p.position.y ≤ 7) := by
  have hrank : ∀ (y : Nat) (rank : List Char), ∀ p ∈ parse_rank y rank,
      p.position.x ≤ 7 ∧ p.position.y ≤ 7 := by
    intro y rank p hp
    unfold parse_rank at hp
    by_cases hy : y > 7
    · simp [hy] at hp
    · rw [if_neg hy] at hp
      obtain ⟨hx, hyy⟩ := parseRankLoop_bounds y rank 0 p hp
      omega
  refine ⟨hrank, fun r ps hps p hp => ?_⟩
  cases r with
  | none => cases hps
  | some ranks =>
    simp only [parse_ranks] at hps
    cases hcap : regexCaptures ranks.data <;> rw [hcap] at hps
    · cases hps
    · injection hps with hh
      subst hh
      obtain ⟨⟨i, g⟩, _, hmem⟩ := List.mem_flatMap.mp hp
      exact hrank _ _ p hmem

end LibFen

namespace LibFen

/-- The head of the remainder (if any) is not a class character — true of
the remainder after a maximal group inside a slash-separated token. -/
def headNotClass : List Char → Prop
  | [] => True
  | c :: _ => inClass c = false

theorem grab_exact (g : List Char) (r : List Char)
    (hg : ∀ c ∈ g, inClass c = true) :
    grab g.length (g ++ r) = some (g, r) := by
  induction g with
  | nil => rfl
  | cons c g ih =>
    have hc : inClass c = true := hg c (by simp)
    have ih2 := ih (fun c hc => hg c (by simp [hc]))
    simp only [List.length_cons, List.cons_append, grab, hc, if_true, List.append_eq, ih2]

theorem grab_none (g : List Char) :
    ∀ (k : Nat) (r : List Char), (∀ c ∈ g, inClass c = true) →
      g.length < k → headNotClass r → grab k (g ++ r) = none := by
  induction g with
  | nil =>
    intro k r _ hk hr
    obtain ⟨k', rfl⟩ : ∃ k', k = k' + 1 := ⟨k - 1, by omega⟩
    cases r with
    | nil => rfl
    | cons c r2 =>
      simp only [headNotClass] at hr
      simp only [List.nil_append, grab, hr, Bool.false_eq_true, if_false]
  | cons c g ih =>
    intro k r hg hk hr
    obtain ⟨k', rfl⟩ : ∃ k', k = k' + 1 := ⟨k - 1, by omega⟩
    have hc : inClass c = true := hg c (by simp)
    have := ih k' r (fun c hc => hg c (by simp [hc])) (by simp at hk; omega) hr
    simp only [List.cons_append, grab, hc, if_true, List.append_eq, this]

theorem tryGroup_step (next : List Char → Option (List (List Char)))
    (g rest : List Char) (gs' : List (List Char))
    (hg1 : 1 ≤ g.length) (hg : ∀ c ∈ g, inClass c = true)
    (hr : headNotClass rest) (hres : afterGroup next rest = some gs') :
    ∀ k : Nat, g.length ≤ k → tryGroup next k (g ++ rest) = some (g :: gs') := by
  intro k
  induction k with
  | zero => omega
  | succ k' ih =>
    intro hk
    by_cases heq : g.length = k' + 1
    · have hgrab : grab (k' + 1) (g ++ rest) = some (g, rest) := by
        rw [← heq]; exact grab_exact g rest hg
      simp only [tryGroup, hgrab, hres]
    · have hgrab : grab (k' + 1) (g ++ rest) = none :=
        grab_none g (k' + 1) rest hg (by omega) hr
      simp only [tryGroup, hgrab]
      exact ih (by omega)

/-- A nonempty list of well-formed rank-groups, joined with `/`
separators, is matched by the repetition pattern with exactly those
groups as captures. -/
theorem matchGroups_joinSlash :
    ∀ gs : List (List Char), gs ≠ [] →
      (∀ g ∈ gs, 1 ≤ g.length ∧ g.length ≤ 8 ∧ ∀ c ∈ g, inClass c = true) →
      matchGroups gs.length (joinSlash gs) = some gs := by
  intro gs
  induction gs with
  | nil => intro h; exact absurd rfl h
  | cons g gs ih =>
    intro _ hgood
    obtain ⟨hg1, hg8, hgc⟩ := hgood g (by simp)
    cases gs with
    | nil =>
      have hres : afterGroup (matchGroups 0) [] = some [] := rfl
      have := tryGroup_step (matchGroups 0) g [] [] hg1 hgc trivial hres 8 hg8
      simpa [matchGroups, joinSlash] using this
    | cons g2 gs2 =>
      have hnext : matchGroups (g2 :: gs2).length (joinSlash (g2 :: gs2)) =
          some (g2 :: gs2) :=
        ih (by simp) (fun g hg => hgood g (by simp [hg]))
      have hres : afterGroup (matchGroups (g2 :: gs2).length)
          ('/' :: joinSlash (g2 :: gs2)) = some (g2 :: gs2) := by
        simp only [afterGroup, hnext]
      have hstep := tryGroup_step (matchGroups (g2 :: gs2).length) g
        ('/' :: joinSlash (g2 :: gs2)) (g2 :: gs2) hg1 hgc
        (by simp only [headNotClass]; decide) hres 8 hg8
      simpa [matchGroups, joinSlash] using hstep

theorem splitSlash_ne_nil (l : List Char) : splitSlash l ≠ [] := by
  cases l with
  | nil => simp [splitSlash]
  | cons c cs =>
    by_cases hc : c = '/'
    · simp [splitSlash, hc]
    · simp only [splitSlash, if_neg hc]
      cases splitSlash cs <;> simp

theorem splitSlash_join (l : List Char) : joinSlash (splitSlash l) = l := by
  induction l with
  | nil => rfl
  | cons c cs ih =>
    by_cases hc : c = '/'
    · subst hc
      simp only [splitSlash, if_pos rfl]
      cases h : splitSlash cs with
      | nil => exact absurd h (splitSlash_ne_nil cs)
      | cons g2 gs =>
        rw [h] at ih
        simp only [joinSlash, List.nil_append, ih]
    · simp only [splitSlash, if_neg hc]
      cases h : splitSlash cs with
      | nil => exact absurd h (splitSlash_ne_nil cs)
      | cons g gs =>
        rw [h] at ih
        cases gs with
        | nil => simp only [joinSlash] at ih ⊢; rw [ih]
        | cons h2 t2 =>
          simp only [joinSlash, List.cons_append] at ih ⊢
          rw [ih]

end LibFen

namespace LibFen

/-- Claim C8 witness: the single piece decoded from `8/8/8/8/8/8/8/7p`
sits at column 7, row 0 — within bounds. -/
theorem placement_positions_in_bounds_witness :
    (Piece.mk .Pawn .Black ⟨7, 0⟩).position.x ≤ 7 ∧
    (Piece.mk .Pawn .Black ⟨7, 0⟩).position.y ≤ 7 :=
  placement_positions_in_bounds.2 (some "8/8/8/8/8/8/8/7p")
    [Piece.mk .Pawn .Black ⟨7, 0⟩] (by decide)
    (Piece.mk .Pawn .Black ⟨7, 0⟩) (by decide)

/-- Claim C4, amended: a present placement token of exactly 8 well-formed
rank-groups separated by `/` always decodes successfully, an absent
token fails with `IncompleteFen`, and a present token is decoded exactly
when the embedded pattern accepts it, failing with `Generic` otherwise —
but the pattern's acceptance is strictly broader than the claimed shape:
each separating `/` is optional and one trailing `/` is allowed, so for
example `8/8/8/8/8/8/8/8/` is accepted although it is not 8 groups
separated by `/`. -/
theorem rank_shape_amended :
    (∀ t : String, claimedShape t = true → ∃ ps, parse_ranks (some t) = .ok ps) ∧
    parse_ranks none = .error .IncompleteFen ∧
    (∀ t : String, regexCaptures t.data = none →
      parse_ranks (some t) = .error .Generic) ∧
    (∀ (t : String) (ps : List Piece), parse_ranks (some t) = .ok ps →
      regexCaptures t.data ≠ none) ∧
    parse_ranks (some "8/8/8/8/8/8/8/8/") = .ok [] ∧
    claimedShape "8/8/8/8/8/8/8/8/" = false := by
  refine ⟨fun t h => ?_, rfl, fun t hcap => ?_, fun t ps hps => ?_,
    by decide, by decide⟩
  · have hlen : (splitSlash t.data).length = 8 := by
      simp only [claimedShape, Bool.and_eq_true, decide_eq_true_eq] at h
      exact h.1
    have hgood : ∀ g ∈ splitSlash t.data,
        1 ≤ g.length ∧ g.length ≤ 8 ∧ ∀ c ∈ g, inClass c = true := by
      simp only [claimedShape, Bool.and_eq_true, List.all_eq_true,
        goodGroup, decide_eq_true_eq] at h
      intro g hg
      obtain ⟨⟨h1, h2⟩, h3⟩ := h.2 g hg
      exact ⟨h1, h2, h3⟩
    have hm := matchGroups_joinSlash (splitSlash t.data)
      (splitSlash_ne_nil t.data) hgood
    rw [splitSlash_join, hlen] at hm
    exact ⟨(splitSlash t.data).enum.flatMap fun p => parse_rank (7 - p.1) p.2,
      by simp only [parse_ranks, regexCaptures, hm]⟩
  · simp only [parse_ranks, hcap]
  · intro hcap
    simp only [parse_ranks, hcap] at hps
    cases hps

/-- Claim C4 counterexample: the token `88888888` — no `/` separators at
all, hence not of the claimed "exactly 8 rank-groups separated by `/`"
shape — is nevertheless accepted by strict placement decoding. -/
theorem rank_shape_counterexample :
    parse_ranks (some "88888888") = .ok [] ∧
    claimedShape "88888888" = false := by
  exact ⟨by decide, by decide⟩

/-- Claim C4 witness: a well-shaped all-empty board token decodes
successfully. -/
theorem rank_shape_amended_witness :
    ∃ ps, parse_ranks (some "8/8/8/8/8/8/8/8") = .ok ps :=
  rank_shape_amended.1 "8/8/8/8/8/8/8/8" (by decide)

end LibFen

namespace LibFen

/-- The standard initial position FEN string. -/
def initialFen : String :=
  "rnbqkbnr/pppppppp/8/8/8/8/PPPPPPPP/RNBQKBNR w KQkq - 0 1"

/-- The canonical back-rank piece kinds, by column. -/
def backRank : Fin 8 → Kind
  | 0 => .Rook
  | 1 => .Knight
  | 2 => .Bishop
  | 3 => .Queen
  | 4 => .King
  | 5 => .Bishop
  | 6 => .Knight
  | 7 => .Rook

/-- Claim C5 (code bug): strict `parse` of the standard initial position
FEN does NOT succeed — it fails with `Generic`, because the en-passant
decoder rejects the standard `-` token — although the repository's own
`starting_position` test asserts success.  The placement machinery
itself is exactly as the claim describes: decoding the same string
leniently (which applies the placement field) yields exactly the 32
canonical pieces — White back rank on row 0, White pawns on row 1, rows
2–5 empty, Black pawns on row 6, Black back rank on row 7, rank-group
`i` landing on row `7-(i-1)`, uppercase White and lowercase Black. -/
theorem initial_position_code_bug :
    parse initialFen = .error .Generic ∧
    (∀ x : Fin 8,
      (parse_or_default initialFen).pieces 0 x = some ⟨backRank x, .White, ⟨x, 0⟩⟩ ∧
      (parse_or_default initialFen).pieces 1 x = some ⟨.Pawn, .White, ⟨x, 1⟩⟩ ∧
      (parse_or_default initialFen).pieces 6 x = some ⟨.Pawn, .Black, ⟨x, 6⟩⟩ ∧
      (parse_or_default initialFen).pieces 7 x = some ⟨backRank x, .Black, ⟨x, 7⟩⟩) ∧
    (∀ y x : Fin 8, 2 ≤ (y : Nat) → (y : Nat) ≤ 5 →
      (parse_or_default initialFen).pieces y x = none) :=
  ⟨by rfl, by decide, by decide⟩

end LibFen

namespace LibFen

/-- Claim C5 witness: square (0, 3) of the leniently decoded initial
position is empty, instantiating the empty-middle-rows conjunct. -/
theorem initial_position_code_bug_witness :
    (parse_or_default initialFen).pieces 3 0 = none :=
  initial_position_code_bug.2.2 3 0 (by decide) (by decide)

end LibFen
